import Mathlib

/-!
Shallow embedding of the Blackjack engine from `src/blackjack.py` and
`src/app.py` (the two files share the same core functions line for line),
together with theorems settling the specification claims.

Conventions of the embedding:
* a Python card tuple `(rank, suit)` becomes a pair `Rank × Suit`;
* a Python list is a Lean `List`, with the END of the list being the top of
  the deck (Python `list.pop()` removes the last element);
* a Python operation that can raise an exception (`list.pop()` on an empty
  list raises `IndexError`) returns an `Option`, with `none` standing for
  the raised, uncaught exception;
* the process-wide random source consumed by `random.shuffle` is passed in
  explicitly as a function `Nat → Nat` of index choices.
-/

namespace Blackjack

/-- Card ranks, mirroring the Python strings in
`RANKS = ['2', ..., '10', 'J', 'Q', 'K', 'A']` (`src/blackjack.py` line 24). -/
inductive Rank where
  | r2 | r3 | r4 | r5 | r6 | r7 | r8 | r9 | r10
  | J | Q | K | A
deriving DecidableEq, Repr, Fintype

/-- Card suits, mirroring the Python strings in `SUITS` (spades, hearts,
diamonds, clubs — `src/blackjack.py` line 25). -/
inductive Suit where
  | S | H | D | C
deriving DecidableEq, Repr, Fintype

/-- A card is a (rank, suit) pair, exactly the Python tuple. -/
abbrev Card := Rank × Suit

/-- The list `RANKS` from `src/blackjack.py` line 24, in source order. -/
def RANKS : List Rank :=
  [.r2, .r3, .r4, .r5, .r6, .r7, .r8, .r9, .r10, .J, .Q, .K, .A]

/-- The list `SUITS` from `src/blackjack.py` line 25, in source order. -/
def SUITS : List Suit := [.S, .H, .D, .C]

/-- Python `card_value(rank)` (`src/blackjack.py` lines 36-42): J/Q/K are 10,
Ace is 11 (adjusted later), number cards are their face value. -/
def card_value : Rank → Nat
  | .J | .Q | .K => 10
  | .A => 11
  | .r2 => 2
  | .r3 => 3
  | .r4 => 4
  | .r5 => 5
  | .r6 => 6
  | .r7 => 7
  | .r8 => 8
  | .r9 => 9
  | .r10 => 10

/-- The `while value > 21 and aces > 0: value -= 10; aces -= 1` loop of
`hand_value` (`src/blackjack.py` lines 59-61), recursing on the ace count. -/
def reduceAces : Nat → Nat → Nat
  | value, 0 => value
  | value, a + 1 => if 21 < value then reduceAces (value - 10) a else value

/-- Python `hand_value(hand)` (`src/blackjack.py` lines 45-63): one pass
accumulating the base value (aces as 11) and the ace count, then the
ace-softening loop. -/
def hand_value (hand : List Card) : Nat :=
  let acc := hand.foldl
    (fun (p : Nat × Nat) c =>
      (p.1 + card_value c.1, if c.1 = Rank.A then p.2 + 1 else p.2))
    (0, 0)
  reduceAces acc.1 acc.2

/-- Base value of a hand with every Ace counted as 11: the value the
accumulation loop of `hand_value` reaches before ace softening. -/
def baseSum (hand : List Card) : Nat :=
  (hand.map (fun c => card_value c.1)).sum

/-- Number of Aces in a hand: the `aces` counter of `hand_value`. -/
def aceCount (hand : List Card) : Nat :=
  hand.countP (fun c => decide (c.1 = Rank.A))

/-- Totals obtainable from a hand by counting each Ace as 11 or 1, stated
from the specification side for refinement claim C1: choosing some `k` of
the hand's Aces to count as 1 (and the rest as 11) yields the total
`baseSum hand - 10 * k`, and every 11-or-1 assignment arises this way. -/
def isAchievable (hand : List Card) (t : Nat) : Prop :=
  ∃ k, k ≤ aceCount hand ∧ t = baseSum hand - 10 * k

/-- Python `list.pop()` on a deck: removes and returns the LAST element;
`none` models the `IndexError` raised on an empty list. -/
def pop : List Card → Option (Card × List Card)
  | [] => none
  | x :: xs => some ((x :: xs).getLast (List.cons_ne_nil x xs), (x :: xs).dropLast)

/-- Python `deal_initial_hands(deck)` (`src/blackjack.py` lines 77-81):
`player = [deck.pop(), deck.pop()]; dealer = [deck.pop(), deck.pop()]`.
Returns (player, dealer, remaining deck); `none` models an `IndexError`
from popping a too-small deck. -/
def deal_initial_hands (deck : List Card) :
    Option (List Card × List Card × List Card) :=
  match pop deck with
  | none => none
  | some (c1, d1) =>
    match pop d1 with
    | none => none
    | some (c2, d2) =>
      match pop d2 with
      | none => none
      | some (c3, d3) =>
        match pop d3 with
        | none => none
        | some (c4, d4) => some ([c1, c2], [c3, c4], d4)

/-- Python `dealer_turn(deck, hand)` (`src/app.py` lines 48-51, and
`src/blackjack.py` lines 106-124 modulo printing):
`while hand_value(hand) <= 16: hand.append(deck.pop())`.
`none` models the `IndexError` raised when the loop pops an empty deck. -/
def dealer_turn (deck hand : List Card) : Option (List Card × List Card) :=
  if hand_value hand ≤ 16 then
    match h : pop deck with
    | none => none
    | some (c, deck') => dealer_turn deck' (hand ++ [c])
  else
    some (deck, hand)
termination_by deck.length
decreasing_by
  cases deck with
  | nil => simp [pop] at h
  | cons x xs =>
    simp only [pop, Option.some.injEq, Prod.mk.injEq] at h
    obtain ⟨-, hl⟩ := h
    subst hl
    simp

/-- Python `determine_winner(player, dealer)` (`src/blackjack.py`
lines 127-143): returns the string `player` or `dealer`; dealer wins ties. -/
def determine_winner (player dealer : List Card) : String :=
  let p_val := hand_value player
  let d_val := hand_value dealer
  if 21 < p_val then "dealer"
  else if 21 < d_val then "player"
  else if d_val < p_val then "player"
  else "dealer"

/-- Models `random.shuffle` from the Python standard library (external to
this repository; called at `src/blackjack.py` line 32 and `src/app.py`
line 13): an in-place random permutation of the list, driven by the
process-wide random source. Embedded as repeated selection of the element
sitting at a random-source-chosen index, the source `r` supplying an index
choice for each remaining length. The claims about the shuffled deck use
only that the result is a permutation of the input, which holds for every
state of the source. -/
def pyShuffle {α : Type} [DecidableEq α] (r : Nat → Nat) : List α → List α
  | [] => []
  | x :: xs =>
    ((x :: xs).getD (r (xs.length + 1) % (xs.length + 1)) x) ::
      pyShuffle r ((x :: xs).erase ((x :: xs).getD (r (xs.length + 1) % (xs.length + 1)) x))
termination_by l => l.length
decreasing_by
  have hlt : r (xs.length + 1) % (xs.length + 1) < (x :: xs).length := by
    simpa using Nat.mod_lt _ (Nat.succ_pos xs.length)
  have hm : (x :: xs).getD (r (xs.length + 1) % (xs.length + 1)) x ∈ x :: xs := by
    rw [List.getD_eq_getElem _ _ hlt]
    exact List.getElem_mem hlt
  rw [List.length_erase_of_mem hm]
  simp

/-- Python `build_deck(shuffle)` (`src/blackjack.py` lines 28-33 and
`src/app.py` lines 10-14): the comprehension
`[(rank, suit) for suit in SUITS for rank in RANKS]` (outer loop over suits,
inner loop over ranks), then `random.shuffle(deck)` if `shuffle` is true.
The random source `r` is the explicit stand-in for the process-wide
`random` state. -/
def build_deck (shuffle : Bool) (r : Nat → Nat) : List Card :=
  let deck := SUITS.flatMap (fun suit => RANKS.map (fun rank => (rank, suit)))
  if shuffle then pyShuffle r deck else deck

/-- The session contents the Flask adapter persists between requests
(`src/app.py` lines 72-75 and 108-111): deck, player hand, dealer hand and
the state string (one of `playing`, `dealer`, `done` as assigned by the
code). -/
structure SessionSt where
  deck : List Card
  player : List Card
  dealer : List Card
  state : String
deriving DecidableEq, Repr

/-- Python `game()` view handler (`src/app.py` lines 78-111) as a pure
function from the request (method string, form `action` value) and the
incoming session to the outgoing session and the `message` string; the
template rendering of lines 113-120 is presentation-only and omitted.
`none` models an uncaught `IndexError` from popping an empty deck, which
aborts the request without persisting the session. -/
def gameStep (method : String) (action : Option String) (s : SessionSt) :
    Option (SessionSt × String) :=
  let afterPlayer : Option (List Card × List Card × String × String) :=
    if method = "POST" ∧ s.state = "playing" then
      if action = some "hit" then
        match pop s.deck with
        | none => none
        | some (c, deck') =>
          let player' := s.player ++ [c]
          if 21 < hand_value player' then
            some (deck', player', "done", "You busted! Dealer wins.")
          else
            some (deck', player', "playing", "")
      else if action = some "stand" then
        some (s.deck, s.player, "dealer", "")
      else
        some (s.deck, s.player, s.state, "")
    else
      some (s.deck, s.player, s.state, "")
  match afterPlayer with
  | none => none
  | some (deck, player, state, message) =>
    if state = "dealer" then
      match dealer_turn deck s.dealer with
      | none => none
      | some (deck', dealer') =>
        let winner := determine_winner player dealer'
        let msg := if winner = "player" then "You win!"
                   else "Dealer wins! (Dealer wins ties)"
        some (⟨deck', player, dealer', "done"⟩, msg)
    else
      some (⟨deck, player, s.dealer, state⟩, message)

/-! ## Helper lemmas -/

/-- A successful pop splits the deck into the rest and its last card. -/
theorem pop_eq_some {l l' : List Card} {c : Card} (h : pop l = some (c, l')) :
    l = l' ++ [c] := by
  cases l with
  | nil => simp [pop] at h
  | cons x xs =>
    simp only [pop, Option.some.injEq, Prod.mk.injEq] at h
    obtain ⟨hc, hl⟩ := h
    subst hc hl
    exact (List.dropLast_append_getLast (List.cons_ne_nil x xs)).symm

/-- Popping a deck whose last element is `c` yields `c` and the rest. -/
theorem pop_append (l : List Card) (c : Card) : pop (l ++ [c]) = some (c, l) := by
  cases l with
  | nil => simp [pop]
  | cons x xs =>
    simp only [List.cons_append, pop, Option.some.injEq, Prod.mk.injEq]
    constructor
    · exact List.getLast_append_singleton (x :: xs)
    · rw [show x :: (xs ++ [c]) = (x :: xs) ++ [c] by rfl, List.dropLast_concat]

/-- The accumulation loop of `hand_value` computes the base sum and the ace
count on top of whatever the accumulator already holds. -/
theorem hand_value_foldl (hand : List Card) (v a : Nat) :
    hand.foldl
      (fun (p : Nat × Nat) c =>
        (p.1 + card_value c.1, if c.1 = Rank.A then p.2 + 1 else p.2))
      (v, a) = (v + baseSum hand, a + aceCount hand) := by
  induction hand generalizing v a with
  | nil => simp [baseSum, aceCount]
  | cons c t ih =>
    simp only [List.foldl_cons, ih, baseSum, aceCount, List.map_cons, List.sum_cons,
      List.countP_cons, Prod.mk.injEq]
    refine ⟨by omega, ?_⟩
    by_cases hA : c.1 = Rank.A <;> simp [hA] <;> omega

/-- `hand_value` is the ace-softening loop applied to base sum and ace count. -/
theorem hand_value_eq (hand : List Card) :
    hand_value hand = reduceAces (baseSum hand) (aceCount hand) := by
  simp only [hand_value]
  rw [hand_value_foldl hand 0 0]
  simp

/-- The softening loop lands on a total of the form `S - 10 * k` with `k` at
most the ace count. -/
theorem reduceAces_exists (A : Nat) : ∀ S : Nat,
    ∃ k, k ≤ A ∧ reduceAces S A = S - 10 * k := by
  induction A with
  | zero => exact fun S => ⟨0, Nat.le_refl 0, by simp [reduceAces]⟩
  | succ a ih =>
    intro S
    by_cases h : 21 < S
    · obtain ⟨k, hk, he⟩ := ih (S - 10)
      refine ⟨k + 1, by omega, ?_⟩
      simp only [reduceAces, if_pos h, he]
      omega
    · exact ⟨0, by omega, by simp [reduceAces, if_neg h]⟩

/-- If some softening of at most `A` aces reaches 21 or below, the loop
stops at 21 or below. -/
theorem reduceAces_le (A : Nat) : ∀ S : Nat,
    (∃ k, k ≤ A ∧ S - 10 * k ≤ 21) → reduceAces S A ≤ 21 := by
  induction A with
  | zero =>
    intro S ⟨k, hk, hle⟩
    simp only [reduceAces]
    omega
  | succ a ih =>
    intro S ⟨k, hk, hle⟩
    by_cases hS : 21 < S
    · simp only [reduceAces, if_pos hS]
      exact ih (S - 10) ⟨k - 1, by omega, by omega⟩
    · simp only [reduceAces, if_neg hS]
      omega

/-- The loop's result dominates every softened total that is 21 or below:
it stops at the first (hence largest) such total. -/
theorem reduceAces_max (A : Nat) : ∀ S k : Nat,
    k ≤ A → S - 10 * k ≤ 21 → S - 10 * k ≤ reduceAces S A := by
  induction A with
  | zero =>
    intro S k hk _
    simp only [reduceAces]
    omega
  | succ a ih =>
    intro S k hk hle
    by_cases hS : 21 < S
    · simp only [reduceAces, if_pos hS]
      have hk1 : 1 ≤ k := by omega
      have := ih (S - 10) (k - 1) (by omega) (by omega)
      omega
    · simp only [reduceAces, if_neg hS]
      omega

/-- If every softening of at most `A` aces still exceeds 21, the loop
softens all `A` of them. -/
theorem reduceAces_bust (A : Nat) : ∀ S : Nat,
    (∀ k, k ≤ A → 21 < S - 10 * k) → reduceAces S A = S - 10 * A := by
  induction A with
  | zero =>
    intro S _
    simp [reduceAces]
  | succ a ih =>
    intro S h
    have hS : 21 < S := by have := h 0 (by omega); omega
    simp only [reduceAces, if_pos hS]
    rw [ih (S - 10) (fun k hk => by have := h (k + 1) (by omega); omega)]
    omega

/-- The dealer loop, on success, ends with a hand of value at least 17 that
extends the starting hand, drawing at least one card when it started at 16
or below. -/
theorem dealer_turn_sound : ∀ (deck hand deck' hand' : List Card),
    dealer_turn deck hand = some (deck', hand') →
    17 ≤ hand_value hand' ∧
      ∃ extra, hand' = hand ++ extra ∧ (hand_value hand ≤ 16 → extra ≠ []) := by
  have key : ∀ n (deck : List Card), deck.length = n →
      ∀ hand deck' hand', dealer_turn deck hand = some (deck', hand') →
      17 ≤ hand_value hand' ∧
        ∃ extra, hand' = hand ++ extra ∧ (hand_value hand ≤ 16 → extra ≠ []) := by
    intro n
    induction n using Nat.strong_induction_on with
    | _ n ih =>
      intro deck hn hand deck' hand' hres
      rw [dealer_turn] at hres
      by_cases h16 : hand_value hand ≤ 16
      · rw [if_pos h16] at hres
        split at hres
        · exact absurd hres (by simp)
        · rename_i c deck₀ hpop
          have hlen : deck₀.length < n := by
            have := pop_eq_some hpop
            subst this
            simp at hn
            omega
          obtain ⟨hv, extra, hext, -⟩ := ih _ hlen deck₀ rfl _ _ _ hres
          refine ⟨hv, c :: extra, ?_, fun _ => by simp⟩
          simp [hext]
      · rw [if_neg h16] at hres
        obtain ⟨hdeck, hhand⟩ := by
          simpa using hres
        subst hdeck hhand
        exact ⟨by omega, [], by simp, fun h => absurd h h16⟩
  exact fun deck => key deck.length deck rfl

/-- Shape of every successful `game` request: the outgoing state is
`playing`, `done`, or the incoming state passed through (in which case the
incoming state was not `dealer`, since a `dealer` state always enters the
dealer branch and leaves as `done`); and the dealer hand is unchanged
unless the request was a stand during play or the incoming state was
already `dealer`. -/
theorem gameStep_shape (method : String) (action : Option String) (s : SessionSt)
    (out : SessionSt × String) (h : gameStep method action s = some out) :
    (out.1.state = "playing" ∨ out.1.state = "done" ∨
      (out.1.state = s.state ∧ s.state ≠ "dealer"))
  ∧ (out.1.dealer = s.dealer ∨
      (method = "POST" ∧ s.state = "playing" ∧ action = some "stand") ∨
      s.state = "dealer") := by
  simp only [gameStep] at h
  split at h
  · exact absurd h (by simp)
  · rename_i deck player state message heq
    by_cases hdlr : state = "dealer"
    · subst hdlr
      rw [if_pos rfl] at h
      split at h
      · exact absurd h (by simp)
      · rename_i deck' dealer' hdt
        simp only [Option.some.injEq] at h
        subst h
        refine ⟨Or.inr (Or.inl rfl), Or.inr ?_⟩
        split at heq
        · rename_i hcond
          split at heq
          · split at heq
            · exact absurd heq (by simp)
            · split at heq <;>
                · simp only [Option.some.injEq, Prod.mk.injEq] at heq
                  exact absurd heq.2.2.1 (by simp)
          · split at heq
            · rename_i hstand
              exact Or.inl ⟨hcond.1, hcond.2, hstand⟩
            · simp only [Option.some.injEq, Prod.mk.injEq] at heq
              exact Or.inr heq.2.2.1
        · simp only [Option.some.injEq, Prod.mk.injEq] at heq
          exact Or.inr heq.2.2.1
    · rw [if_neg hdlr] at h
      simp only [Option.some.injEq] at h
      subst h
      refine ⟨?_, Or.inl rfl⟩
      split at heq
      · split at heq
        · split at heq
          · exact absurd heq (by simp)
          · split at heq
            · simp only [Option.some.injEq, Prod.mk.injEq] at heq
              exact Or.inr (Or.inl heq.2.2.1.symm)
            · simp only [Option.some.injEq, Prod.mk.injEq] at heq
              exact Or.inl heq.2.2.1.symm
        · split at heq
          · simp only [Option.some.injEq, Prod.mk.injEq] at heq
            exact absurd heq.2.2.1.symm hdlr
          · simp only [Option.some.injEq, Prod.mk.injEq] at heq
            exact Or.inr (Or.inr ⟨heq.2.2.1.symm, by rw [heq.2.2.1]; exact hdlr⟩)
      · simp only [Option.some.injEq, Prod.mk.injEq] at heq
        exact Or.inr (Or.inr ⟨heq.2.2.1.symm, by rw [heq.2.2.1]; exact hdlr⟩)

/-- The result of the modelled shuffle is a permutation of its input, for
every state of the random source. -/
theorem pyShuffle_perm {α : Type} [DecidableEq α] (r : Nat → Nat) (l : List α) :
    (pyShuffle r l).Perm l := by
  have key : ∀ n (l : List α), l.length = n → (pyShuffle r l).Perm l := by
    intro n
    induction n using Nat.strong_induction_on with
    | _ n ih =>
      intro l hn
      cases l with
      | nil => simp [pyShuffle]
      | cons x xs =>
        rw [pyShuffle]
        have hlt : r (xs.length + 1) % (xs.length + 1) < (x :: xs).length := by
          simpa using Nat.mod_lt _ (Nat.succ_pos xs.length)
        have hm : (x :: xs).getD (r (xs.length + 1) % (xs.length + 1)) x ∈ x :: xs := by
          rw [List.getD_eq_getElem _ _ hlt]
          exact List.getElem_mem hlt
        have hlen : ((x :: xs).erase
            ((x :: xs).getD (r (xs.length + 1) % (xs.length + 1)) x)).length < n := by
          rw [List.length_erase_of_mem hm]
          simp [← hn]
        exact ((ih _ hlen _ rfl).cons _).trans (List.perm_cons_erase hm).symm
  exact key l.length l rfl

/-! ## Claim theorems -/

/-- C1: `hand_value` returns the maximal total at most 21 obtainable by
counting each Ace as 11 or 1 (J/Q/K as 10, number cards at face value), or,
when every such assignment exceeds 21, the minimal total (all Aces as 1),
reported unclamped so bust is detectable by comparison with 21; and the
four concrete examples: two Aces give 12, Ace-9-Ace gives 21,
King-Queen-Ace gives 21, 10-10-5 gives 25. -/
theorem hand_value_best (hand : List Card) :
    isAchievable hand (hand_value hand)
  ∧ ((∃ t, isAchievable hand t ∧ t ≤ 21) →
      hand_value hand ≤ 21 ∧ ∀ t, isAchievable hand t → t ≤ 21 → t ≤ hand_value hand)
  ∧ ((∀ t, isAchievable hand t → 21 < t) →
      ∀ t, isAchievable hand t → hand_value hand ≤ t)
  ∧ hand_value [(Rank.A, Suit.S), (Rank.A, Suit.H)] = 12
  ∧ hand_value [(Rank.A, Suit.S), (Rank.r9, Suit.H), (Rank.A, Suit.D)] = 21
  ∧ hand_value [(Rank.K, Suit.S), (Rank.Q, Suit.H), (Rank.A, Suit.D)] = 21
  ∧ hand_value [(Rank.r10, Suit.S), (Rank.r10, Suit.H), (Rank.r5, Suit.D)] = 25 := by
  refine ⟨?_, ?_, ?_, by decide, by decide, by decide, by decide⟩
  · obtain ⟨k, hk, he⟩ := reduceAces_exists (aceCount hand) (baseSum hand)
    exact ⟨k, hk, by rw [hand_value_eq]; exact he⟩
  · rintro ⟨t, ⟨k, hk, ht⟩, hle⟩
    have h21 : hand_value hand ≤ 21 := by
      rw [hand_value_eq]
      exact reduceAces_le _ _ ⟨k, hk, by omega⟩
    refine ⟨h21, ?_⟩
    rintro t' ⟨k', hk', ht'⟩ hle'
    rw [hand_value_eq]
    subst ht'
    exact reduceAces_max _ _ _ hk' hle'
  · rintro hbust t ⟨k, hk, ht⟩
    have hb : ∀ k', k' ≤ aceCount hand → 21 < baseSum hand - 10 * k' :=
      fun k' hk' => hbust _ ⟨k', hk', rfl⟩
    rw [hand_value_eq, reduceAces_bust _ _ hb]
    subst ht
    omega

/-- Witness for C1 at the concrete hand Ace-Ace: hypotheses of the inner
implications discharged at the achievable total 12. -/
theorem hand_value_best_witness :
    hand_value [(Rank.A, Suit.S), (Rank.A, Suit.H)] ≤ 21 ∧
    12 ≤ hand_value [(Rank.A, Suit.S), (Rank.A, Suit.H)] := by
  have h := hand_value_best [(Rank.A, Suit.S), (Rank.A, Suit.H)]
  have h2 := h.2.1 ⟨12, ⟨1, by decide, by decide⟩, by decide⟩
  exact ⟨h2.1, h2.2 12 ⟨1, by decide, by decide⟩ (by decide)⟩

/-- C2: `determine_winner` is total over final hands, never returns the
push outcome, and follows exactly the cascade: player bust → dealer wins;
else dealer bust → player wins; else strictly higher player value → player
wins; otherwise (dealer ahead or exact tie) → dealer wins. The four
concrete pairs: 21 vs 21 → dealer, 22 vs 20 → dealer, 20 vs 22 → player,
19 vs 18 → player. -/
theorem determine_winner_spec (player dealer : List Card) :
    (determine_winner player dealer = "player" ∨ determine_winner player dealer = "dealer")
  ∧ determine_winner player dealer ≠ "push"
  ∧ (21 < hand_value player → determine_winner player dealer = "dealer")
  ∧ (hand_value player ≤ 21 → 21 < hand_value dealer →
      determine_winner player dealer = "player")
  ∧ (hand_value player ≤ 21 → hand_value dealer ≤ 21 →
      hand_value dealer < hand_value player → determine_winner player dealer = "player")
  ∧ (hand_value player ≤ 21 → hand_value dealer ≤ 21 →
      hand_value player ≤ hand_value dealer → determine_winner player dealer = "dealer")
  ∧ determine_winner [(Rank.A, Suit.S), (Rank.K, Suit.S)]
      [(Rank.A, Suit.H), (Rank.K, Suit.H)] = "dealer"
  ∧ determine_winner [(Rank.K, Suit.S), (Rank.Q, Suit.S), (Rank.r2, Suit.S)]
      [(Rank.K, Suit.H), (Rank.Q, Suit.H)] = "dealer"
  ∧ determine_winner [(Rank.K, Suit.S), (Rank.Q, Suit.S)]
      [(Rank.K, Suit.H), (Rank.Q, Suit.H), (Rank.r2, Suit.H)] = "player"
  ∧ determine_winner [(Rank.K, Suit.S), (Rank.r9, Suit.S)]
      [(Rank.K, Suit.H), (Rank.r8, Suit.H)] = "player" := by
  refine ⟨?_, ?_, ?_, ?_, ?_, ?_, by decide, by decide, by decide, by decide⟩ <;>
    simp only [determine_winner]
  · split_ifs <;> simp
  · split_ifs <;> simp
  · intro h
    rw [if_pos h]
  · intro h1 h2
    rw [if_neg (by omega), if_pos h2]
  · intro h1 h2 h3
    rw [if_neg (by omega), if_neg (by omega), if_pos h3]
  · intro h1 h2 h3
    rw [if_neg (by omega), if_neg (by omega), if_neg (by omega)]

/-- Witness for C2 at concrete hands of values 19 and 18, discharging the
value-comparison hypotheses of the cascade. -/
theorem determine_winner_spec_witness :
    determine_winner [(Rank.K, Suit.S), (Rank.r9, Suit.S)]
      [(Rank.K, Suit.H), (Rank.r8, Suit.H)] = "player" :=
  (determine_winner_spec [(Rank.K, Suit.S), (Rank.r9, Suit.S)]
    [(Rank.K, Suit.H), (Rank.r8, Suit.H)]).2.2.2.2.1
    (by decide) (by decide) (by decide)

/-- C3: the dealer turn draws and appends a card exactly while the hand
value is at most 16 (each successful step recurses on the shrunken deck
with the drawn card appended), stops as soon as the value is at least 17
(leaving deck and hand untouched — this includes busts), draws at least one
card when the starting value is at most 16, and on success always ends with
value at least 17; on an exhausted (empty) deck with value at most 16 it
fails instead. -/
theorem dealer_turn_spec (deck hand : List Card) :
    (17 ≤ hand_value hand → dealer_turn deck hand = some (deck, hand))
  ∧ (hand_value hand ≤ 16 → ∀ c deck₀, pop deck = some (c, deck₀) →
      dealer_turn deck hand = dealer_turn deck₀ (hand ++ [c]))
  ∧ (hand_value hand ≤ 16 → deck = [] → dealer_turn deck hand = none)
  ∧ (∀ deck' hand', dealer_turn deck hand = some (deck', hand') →
      17 ≤ hand_value hand' ∧
        ∃ extra, hand' = hand ++ extra ∧ (hand_value hand ≤ 16 → extra ≠ [])) := by
  refine ⟨?_, ?_, ?_, fun deck' hand' h => dealer_turn_sound deck hand deck' hand' h⟩
  · intro h17
    rw [dealer_turn, if_neg (by omega)]
  · intro h16 c deck₀ hpop
    rw [dealer_turn, if_pos h16]
    split
    · rename_i hnone
      rw [hpop] at hnone
      exact absurd hnone (by simp)
    · rename_i c' deck₀' heq
      rw [hpop] at heq
      obtain ⟨rfl, rfl⟩ := by simpa using heq
      rfl
  · intro h16 hdeck
    subst hdeck
    rw [dealer_turn, if_pos h16]
    rfl

/-- Witness for C3: the dealer stands pat on a 20-value hand, and a 16-value
hand with one card in the deck draws it and ends at 18. -/
theorem dealer_turn_spec_witness :
    dealer_turn [(Rank.r2, Suit.S)] [(Rank.K, Suit.S), (Rank.K, Suit.H)] =
      some ([(Rank.r2, Suit.S)], [(Rank.K, Suit.S), (Rank.K, Suit.H)]) ∧
    (17 ≤ hand_value [(Rank.K, Suit.S), (Rank.r6, Suit.S), (Rank.r2, Suit.S)] ∧
      ∃ extra, [(Rank.K, Suit.S), (Rank.r6, Suit.S), (Rank.r2, Suit.S)] =
          [(Rank.K, Suit.S), (Rank.r6, Suit.S)] ++ extra ∧
        (hand_value [(Rank.K, Suit.S), (Rank.r6, Suit.S)] ≤ 16 → extra ≠ [])) := by
  constructor
  · exact (dealer_turn_spec [(Rank.r2, Suit.S)] [(Rank.K, Suit.S), (Rank.K, Suit.H)]).1
      (by decide)
  · exact (dealer_turn_spec [(Rank.r2, Suit.S)] [(Rank.K, Suit.S), (Rank.r6, Suit.S)]).2.2.2
      [] [(Rank.K, Suit.S), (Rank.r6, Suit.S), (Rank.r2, Suit.S)]
      (by simp [dealer_turn, pop, hand_value, reduceAces, card_value])

/-- C4: the code has no checked `DeckExhausted` condition — popping an
empty deck raises an uncaught `IndexError`, modelled as `none`. Evaluating
each drawing operation at the empty deck: the bare pop, the initial deal,
the dealer draw (on a 5-value hand) and the web handler's player hit all
yield `none` (the aborted request/round), never a successful result. -/
theorem draw_on_empty_deck_fails :
    pop [] = none
  ∧ deal_initial_hands [] = none
  ∧ dealer_turn [] [(Rank.r2, Suit.S), (Rank.r3, Suit.S)] = none
  ∧ gameStep "POST" (some "hit")
      ⟨[], [(Rank.K, Suit.S), (Rank.Q, Suit.S)],
        [(Rank.K, Suit.H), (Rank.Q, Suit.H)], "playing"⟩ = none := by
  refine ⟨rfl, rfl, ?_, ?_⟩
  · exact (dealer_turn_spec [] [(Rank.r2, Suit.S), (Rank.r3, Suit.S)]).2.2.1
      (by decide) rfl
  · simp [gameStep, pop]

/-- C5: a Hit or Stand POSTed once the round is resolved (session state
`done`, which is how a player bust is persisted) is silently ignored by the
`game` handler: the session is returned completely unchanged and the
message is empty — no `InvalidAction` error is reported (no such error
exists anywhere in the code), the response being indistinguishable from a
plain reload. -/
theorem game_post_after_resolved_ignored (s : SessionSt) (a : String)
    (h : s.state = "done") : gameStep "POST" (some a) s = some (s, "") := by
  obtain ⟨dk, pl, dl, st⟩ := s
  simp only at h
  subst h
  simp [gameStep]

/-- Witness for C5: concrete resolved session, a POSTed hit returns it
unchanged with an empty message. -/
theorem game_post_after_resolved_ignored_witness :
    gameStep "POST" (some "hit")
      ⟨[(Rank.J, Suit.S)], [(Rank.K, Suit.S), (Rank.Q, Suit.S)],
        [(Rank.K, Suit.H), (Rank.Q, Suit.H)], "done"⟩ =
    some (⟨[(Rank.J, Suit.S)], [(Rank.K, Suit.S), (Rank.Q, Suit.S)],
        [(Rank.K, Suit.H), (Rank.Q, Suit.H)], "done"⟩, "") :=
  game_post_after_resolved_ignored _ "hit" rfl

/-- C6: in the web handler, a hit that busts the player resolves the round
immediately: the session state becomes `done` with the bust message, the
dealer loop is skipped, and the dealer's hand is left exactly as it was;
moreover no successful `playing`-phase request other than a stand ever
changes the dealer's hand, so at a player bust the dealer still holds
exactly the two initially dealt cards. -/
theorem player_bust_resolves_immediately (s : SessionSt) :
    (∀ c deck', s.state = "playing" → pop s.deck = some (c, deck') →
      21 < hand_value (s.player ++ [c]) →
      gameStep "POST" (some "hit") s =
        some (⟨deck', s.player ++ [c], s.dealer, "done"⟩, "You busted! Dealer wins."))
  ∧ (∀ method action out, s.state = "playing" → action ≠ some "stand" →
      gameStep method action s = some out → out.1.dealer = s.dealer) := by
  constructor
  · intro c deck' hst hpop hbust
    simp [gameStep, hst, hpop, hbust]
  · intro method action out hst hstand hstep
    rcases (gameStep_shape method action s out hstep).2 with h1 | h1 | h1
    · exact h1
    · exact absurd h1.2.2 hstand
    · rw [hst] at h1
      exact absurd h1 (by simp)

/-- Witness for C6: a concrete busting hit, with the pop and the bust-value
hypotheses discharged by evaluation. -/
theorem player_bust_resolves_immediately_witness :
    gameStep "POST" (some "hit")
      ⟨[(Rank.J, Suit.S)], [(Rank.K, Suit.S), (Rank.Q, Suit.S)],
        [(Rank.K, Suit.H), (Rank.Q, Suit.H)], "playing"⟩ =
    some (⟨[], [(Rank.K, Suit.S), (Rank.Q, Suit.S), (Rank.J, Suit.S)],
        [(Rank.K, Suit.H), (Rank.Q, Suit.H)], "done"⟩, "You busted! Dealer wins.") :=
  (player_bust_resolves_immediately
    ⟨[(Rank.J, Suit.S)], [(Rank.K, Suit.S), (Rank.Q, Suit.S)],
      [(Rank.K, Suit.H), (Rank.Q, Suit.H)], "playing"⟩).1
    (Rank.J, Suit.S) [] rfl (by decide) (by decide)

/-- C7: `hand_value` is invariant under any reordering (permutation) of the
hand's cards. -/
theorem hand_value_perm_invariant (h₁ h₂ : List Card) (hp : h₁.Perm h₂) :
    hand_value h₁ = hand_value h₂ := by
  rw [hand_value_eq, hand_value_eq]
  have hb : baseSum h₁ = baseSum h₂ := (hp.map _).sum_eq
  have ha : aceCount h₁ = aceCount h₂ := hp.countP_eq _
  rw [hb, ha]

/-- Witness for C7 at a concrete transposition of an Ace-9 hand. -/
theorem hand_value_perm_invariant_witness :
    hand_value [(Rank.A, Suit.S), (Rank.r9, Suit.H)] =
    hand_value [(Rank.r9, Suit.H), (Rank.A, Suit.S)] :=
  hand_value_perm_invariant _ _ (List.Perm.swap _ _ _)

/-- C8: `build_deck` with `shuffle` false yields exactly the 52 distinct
(rank, suit) pairs covering all 4 suits × 13 ranks in fixed suit-major,
rank-minor order (position `i` holds rank `i mod 13` and suit `i div 13` of
the source lists); with `shuffle` true the result is a permutation of that
same 52-card deck, for every state of the random source. -/
theorem build_deck_spec (r : Nat → Nat) :
    (build_deck false r).length = 52
  ∧ (build_deck false r).Nodup
  ∧ (∀ card : Card, card ∈ build_deck false r)
  ∧ (∀ i : Fin 52, (build_deck false r).getD i.val (Rank.A, Suit.S) =
      (RANKS.getD (i.val % 13) Rank.A, SUITS.getD (i.val / 13) Suit.S))
  ∧ (build_deck true r).Perm (build_deck false r) := by
  have hf : build_deck false r =
      SUITS.flatMap (fun suit => RANKS.map (fun rank => (rank, suit))) := by
    simp [build_deck]
  have ht : build_deck true r =
      pyShuffle r (SUITS.flatMap (fun suit => RANKS.map (fun rank => (rank, suit)))) := by
    simp [build_deck]
  rw [hf, ht]
  exact ⟨by decide, by decide, by decide, by decide, pyShuffle_perm r _⟩

/-- C9: the initial deal is non-alternating and draws from the top (the end
of the deck list): the player receives the deck's last two cards in draw
order, the dealer the next two, the deck shrinks by exactly four cards, and
the remaining cards are unchanged in their relative order. -/
theorem deal_initial_hands_spec (rest : List Card) (a b c d : Card) :
    deal_initial_hands (rest ++ [d, c, b, a]) = some ([a, b], [c, d], rest) := by
  have e1 : pop (rest ++ [d, c, b, a]) = some (a, rest ++ [d, c, b]) := by
    rw [show rest ++ [d, c, b, a] = (rest ++ [d, c, b]) ++ [a] by simp]
    exact pop_append _ _
  have e2 : pop (rest ++ [d, c, b]) = some (b, rest ++ [d, c]) := by
    rw [show rest ++ [d, c, b] = (rest ++ [d, c]) ++ [b] by simp]
    exact pop_append _ _
  have e3 : pop (rest ++ [d, c]) = some (c, rest ++ [d]) := by
    rw [show rest ++ [d, c] = (rest ++ [d]) ++ [c] by simp]
    exact pop_append _ _
  have e4 : pop (rest ++ [d]) = some (d, rest) := pop_append _ _
  simp [deal_initial_hands, e1, e2, e3, e4]

/-- C10: a successful request to the `game` handler never persists the
session state `dealer`: starting from any state the app can have persisted,
the outgoing state is always `playing` or `done` — a stand runs the full
dealer loop and outcome resolution within the same request. -/
theorem session_state_never_dealer (method : String) (action : Option String)
    (s : SessionSt) (out : SessionSt × String)
    (hs : s.state = "playing" ∨ s.state = "dealer" ∨ s.state = "done")
    (h : gameStep method action s = some out) :
    out.1.state ≠ "dealer" ∧ (out.1.state = "playing" ∨ out.1.state = "done") := by
  suffices hsuf : out.1.state = "playing" ∨ out.1.state = "done" by
    refine ⟨?_, hsuf⟩
    rcases hsuf with h1 | h1 <;> rw [h1] <;> simp
  rcases (gameStep_shape method action s out h).1 with h1 | h1 | h1
  · exact Or.inl h1
  · exact Or.inr h1
  · rcases hs with h2 | h2 | h2
    · exact Or.inl (h1.1.trans h2)
    · exact absurd h2 h1.2
    · exact Or.inr (h1.1.trans h2)

/-- Witness for C10: a stand POSTed on a concrete playing session ends the
request in state `done`, with the reachable-state and success hypotheses
discharged by evaluation. -/
theorem session_state_never_dealer_witness :
    ((⟨[], [(Rank.K, Suit.S), (Rank.r9, Suit.S)],
        [(Rank.K, Suit.H), (Rank.r6, Suit.H), (Rank.r2, Suit.S)], "done"⟩ : SessionSt),
      ("You win!" : String)).1.state ≠ "dealer" :=
  (session_state_never_dealer "POST" (some "stand")
    ⟨[(Rank.r2, Suit.S)], [(Rank.K, Suit.S), (Rank.r9, Suit.S)],
      [(Rank.K, Suit.H), (Rank.r6, Suit.H)], "playing"⟩
    (⟨[], [(Rank.K, Suit.S), (Rank.r9, Suit.S)],
      [(Rank.K, Suit.H), (Rank.r6, Suit.H), (Rank.r2, Suit.S)], "done"⟩, "You win!")
    (Or.inl rfl)
    (by simp [gameStep, dealer_turn, pop, hand_value, reduceAces, card_value,
      determine_winner])).1

end Blackjack
